import Mathlib

/-!
Verification of the bounded place-lookup cache and the `PlaceDataProvider`
component of the extended-component-library repository.

The `PlaceDataProvider` custom element (source:
`src/place_building_blocks/place_data_provider/place_data_provider.ts`) is
embedded directly from the TypeScript source.  Its collaborator
`CachedPlaceLookup` (the bounded, request-coalescing, least-recently-used
place cache) is declared and used by the provider but its implementation file
is not part of the provided sources; it is modelled from the specification,
as marked on each such definition.

The file is organised as definitions first, then theorems.
-/

namespace ECL

/-- A cache key: the pair of place identifier and optional requested
language (spec §3: "composite of place identifier (string) and requested
language (optional string)"). -/
abbrev CacheKey := String × Option String

/-- A place object.  In the source a `Place` is an opaque record from the
Maps SDK; we keep its identifier, its requested language and an abstract
payload `value` distinguishing different versions of the data. -/
structure Place where
  id : String
  requestedLanguage : Option String
  value : Nat
  deriving Repr, DecidableEq

instance : Inhabited Place := ⟨⟨"", none, 0⟩⟩

/-- The cache key addressed by a place object: its identifier/language pair. -/
def placeKey (p : Place) : CacheKey := (p.id, p.requestedLanguage)

section AListDefs

variable {α : Type} {β : Type} [DecidableEq α]

/-- Lookup in an association list (first binding wins). -/
def alistLookup : List (α × β) → α → Option β
  | [], _ => none
  | e :: es, k => if e.1 = k then some e.2 else alistLookup es k

/-- Remove every binding of a key from an association list. -/
def alistErase : List (α × β) → α → List (α × β)
  | [], _ => []
  | e :: es, k => if e.1 = k then alistErase es k else e :: alistErase es k

end AListDefs

/-- Add a waiting caller to the pending record of a key. -/
def addWaiter : List (CacheKey × List Nat) → CacheKey → Nat →
    List (CacheKey × List Nat)
  | [], _, _ => []
  | e :: es, k, caller =>
    if e.1 = k then (e.1, caller :: e.2) :: es else e :: addWaiter es k caller

/-- Outcome observed by a single `getPlace` call when it starts:
either an immediate cache hit, attachment to an already in-flight fetch for
the same key, or the start of a fresh resolution (fetch) call. -/
inductive GetPlaceOutcome where
  | hit (p : Place)
  | attached
  | fetchStarted
  deriving Repr, DecidableEq

/-- Modelled from the spec: the state of `CachedPlaceLookup`
(implementation file `cached_place_lookup.ts` is not among the provided
sources).  Per spec §3 it is an ordered mapping from `CacheKey` to resolved
entries — bounded to `capacity` entries with least-recently-used eviction,
most recently used first — together with a pending set holding, for each
in-flight fetch, the callers waiting on it (spec §4.1: the in-flight
operation is stored under the key so later lookups attach to it). -/
structure CachedPlaceLookup where
  capacity : Nat
  entries : List (CacheKey × Place)
  pending : List (CacheKey × List Nat)
  deriving Repr, DecidableEq

/-- Modelled from the spec: a freshly constructed cache with the given
capacity (spec §3: "bounded to at most N entries (N configurable at
construction)"). -/
def CachedPlaceLookup.init (n : Nat) : CachedPlaceLookup :=
  { capacity := n, entries := [], pending := [] }

/-- Modelled from the spec: insert or overwrite a resolved entry at the
most-recently-used end, evicting from the least-recently-used end when the
capacity would be exceeded (spec §4.1: "a hit removes-and-reinserts the
entry at the recent end, and overflow evicts from the old end"). -/
def insertMRU (c : CachedPlaceLookup) (k : CacheKey) (p : Place) :
    CachedPlaceLookup :=
  { c with entries := ((k, p) :: alistErase c.entries k).take c.capacity }

/-- Modelled from the spec: the synchronous start of a
`CachedPlaceLookup.getPlace` call by `caller` for key `k` (spec §4.1).
On hit the entry is returned and moved to the most-recently-used end; on a
miss with an outstanding fetch for `k` the caller attaches to it; otherwise
a fresh resolution call is issued and recorded as pending. -/
def CachedPlaceLookup.getPlaceStart (c : CachedPlaceLookup) (caller : Nat)
    (k : CacheKey) : CachedPlaceLookup × GetPlaceOutcome :=
  match alistLookup c.entries k with
  | some p =>
    ({ c with entries := (k, p) :: alistErase c.entries k }, .hit p)
  | none =>
    match alistLookup c.pending k with
    | some _ => ({ c with pending := addWaiter c.pending k caller }, .attached)
    | none => ({ c with pending := (k, [caller]) :: c.pending }, .fetchStarted)

/-- Modelled from the spec: completion of the in-flight fetch for key `k`
with resolved place `p` (spec §4.1: "On success, the entry is inserted
(evicting the least-recently-used entry if the cache is at capacity) and
returned").  Returns the callers to which the result is delivered. -/
def CachedPlaceLookup.complete (c : CachedPlaceLookup) (k : CacheKey)
    (p : Place) : CachedPlaceLookup × List Nat :=
  (insertMRU { c with pending := alistErase c.pending k } k p,
   (alistLookup c.pending k).getD [])

/-- Modelled from the spec: failure of the in-flight fetch for key `k`
(spec §4.1/§7: the error propagates to all waiters, no entry is cached and
the pending marker is cleared).  Returns the callers to which the error is
delivered. -/
def CachedPlaceLookup.fail (c : CachedPlaceLookup) (k : CacheKey) :
    CachedPlaceLookup × List Nat :=
  ({ c with pending := alistErase c.pending k },
   (alistLookup c.pending k).getD [])

/-- Modelled from the spec: `CachedPlaceLookup.updatePlace` inserts or
overwrites the entry for the given place's identifier/language key without
performing a fetch, refreshing its recency (spec §4.1). -/
def CachedPlaceLookup.updatePlace (c : CachedPlaceLookup) (p : Place) :
    CachedPlaceLookup :=
  insertMRU c (placeKey p) p

/-- One atomic step of the interleaved execution against the cache: a
caller starts a `getPlace`, an in-flight fetch completes or fails, or a
caller invokes `updatePlace`. -/
inductive CacheStep where
  | get (caller : Nat) (k : CacheKey)
  | complete (k : CacheKey) (p : Place)
  | fail (k : CacheKey)
  | update (p : Place)
  deriving Repr, DecidableEq

/-- The state after one step. -/
def applyStep (c : CachedPlaceLookup) : CacheStep → CachedPlaceLookup
  | .get caller k => (c.getPlaceStart caller k).1
  | .complete k p => (c.complete k p).1
  | .fail k => (c.fail k).1
  | .update p => c.updatePlace p

/-- The state after a sequence of steps. -/
def runSteps (c : CachedPlaceLookup) : List CacheStep → CachedPlaceLookup
  | [] => c
  | s :: l => runSteps (applyStep c s) l

/-- Number of resolution (fetch) calls a step issues: one exactly when a
`getPlace` start misses with no outstanding fetch. -/
def stepResolutions (c : CachedPlaceLookup) : CacheStep → Nat
  | .get caller k =>
    if (c.getPlaceStart caller k).2 = .fetchStarted then 1 else 0
  | _ => 0

/-- Total number of resolution calls issued while running a step sequence. -/
def resolutions (c : CachedPlaceLookup) : List CacheStep → Nat
  | [] => 0
  | s :: l => stepResolutions c s + resolutions (applyStep c s) l

/-- The internal invariant of the cache: the resolved entries fit in the
capacity, each key has at most one resolved entry, and each key has at most
one pending (in-flight) fetch record. -/
def CacheInv (c : CachedPlaceLookup) : Prop :=
  c.entries.length ≤ c.capacity ∧
  (c.entries.map Prod.fst).Nodup ∧
  (c.pending.map Prod.fst).Nodup

/-- Modelled from the spec: the synchronous collapse of a single
`getPlace` call running to completion (spec §5: single-threaded cooperative
execution; the provider awaits the result).  On a hit the cached place is
returned with its recency refreshed and no resolution call; on a miss the
resolution function is invoked once and its result inserted. -/
def CachedPlaceLookup.getPlaceSync (c : CachedPlaceLookup) (k : CacheKey)
    (resolve : CacheKey → Place) : CachedPlaceLookup × Place × Bool :=
  match alistLookup c.entries k with
  | some p =>
    ({ c with entries := (k, p) :: alistErase c.entries k }, p, false)
  | none =>
    (((c.getPlaceStart 0 k).1.complete k (resolve k)).1, resolve k, true)

/-- The loading state of a `PlaceDataProvider`
(`place_data_provider.ts:25-30`). -/
inductive LoadingState where
  | EMPTY
  | LOADING
  | LOADED
  | ERROR
  deriving Repr, DecidableEq

/-- The capacity of the shared place cache (`place_data_provider.ts:32`). -/
def CACHE_SIZE : Nat := 100

/-- The `place` property of a provider: a Place ID string, a `PlaceResult`
object, or a `Place` object (`place_data_provider.ts:87`).  A
`PlaceResult` is represented by the place object it converts to. -/
inductive PlaceProp where
  | str (s : String)
  | result (p : Place)
  | obj (p : Place)
  deriving Repr, DecidableEq

/-- A registered place consumer, abstracted to the fields it reports via
`getRequiredFields()`. -/
structure PlaceDataConsumer where
  requiredFields : List String
  deriving Repr, DecidableEq

/-- The reactive state of one `PlaceDataProvider` element: its properties,
its registered consumers, its loading state and the context place it
provides (`place_data_provider.ts:54-131`). -/
structure PlaceDataProvider where
  autoFetchDisabled : Bool
  fields : Option (List String)
  place : Option PlaceProp
  language : Option String
  placeConsumers : List PlaceDataConsumer
  loadingState : LoadingState
  contextPlace : Option Place
  deriving Repr, DecidableEq

/-- JavaScript truthiness of `this.place` used by the guard
`if (!this.place)` (`place_data_provider.ts:302`): `undefined` and the
empty string are falsy; any object is truthy. -/
def isFalsyPlace : Option PlaceProp → Bool
  | none => true
  | some (.str s) => s = ""
  | some _ => false

/-- The test `typeof this.place === 'string'`
(`place_data_provider.ts:306,319`). -/
def isStringPlace : Option PlaceProp → Bool
  | some (.str _) => true
  | _ => false

/-- The fold step of inserting one field into the insertion-ordered set
built by `getConsumerFields` (`place_data_provider.ts:369-374`, JS `Set`
semantics: re-adding an element keeps its first position). -/
def addToFieldSet (acc : List String) (f : String) : List String :=
  if f ∈ acc then acc else acc ++ [f]

/-- `PlaceDataProvider.getConsumerFields`
(`place_data_provider.ts:368-376`): the union of `getRequiredFields()` over
the registered consumers, deduplicated in insertion order. -/
def getConsumerFields (consumers : List PlaceDataConsumer) : List String :=
  consumers.foldl (fun acc c => c.requiredFields.foldl addToFieldSet acc) []

/-- The fields requested from the Places API
(`place_data_provider.ts:320-327`): `this.fields` when it is a non-empty
array (`this.fields?.length` truthy), else the consumer fields. -/
def selectFields (s : PlaceDataProvider) : List String :=
  match s.fields with
  | some fs => if fs.length ≠ 0 then fs else getConsumerFields s.placeConsumers
  | none => getConsumerFields s.placeConsumers

/-- `makePlaceFromPlaceResult` (external collaborator from
`utils/place_utils.js`, not among the provided sources): converts a
`PlaceResult` into a Place v2 for the requested language. -/
def makePlaceFromPlaceResult (pr : Place) (lang : Option String) : Place :=
  { pr with requestedLanguage := lang }

/-- The outcome of one `PlaceDataProvider.updatePlace` run: the provider
state afterwards, the shared cache afterwards, and the fields passed to
`fetchFields` (`none` when no `fetchFields` call is made). -/
structure UpdatePlaceResult where
  provider : PlaceDataProvider
  cache : CachedPlaceLookup
  fetchedFields : Option (List String)
  deriving Repr, DecidableEq

/-- `PlaceDataProvider.updatePlace` (`place_data_provider.ts:298-352`), on
the path where any `fetchFields` call succeeds.  The provider sets the
loading state, resolves `this.place` into the context place (consulting or
updating the shared cache according to its type), then fetches fields if
`this.place` is a Place ID string or auto-fetch is not disabled. -/
def PlaceDataProvider.updatePlace (s : PlaceDataProvider)
    (cache : CachedPlaceLookup) (resolve : CacheKey → Place) :
    UpdatePlaceResult :=
  let s := { s with loadingState := LoadingState.LOADING }
  if isFalsyPlace s.place then
    let s := { s with contextPlace := none, loadingState := LoadingState.EMPTY }
    { provider := s, cache := cache, fetchedFields := none }
  else
    let step : CachedPlaceLookup × Place :=
      match s.place with
      | some (.str pid) =>
        let r := cache.getPlaceSync (pid, s.language) resolve
        (r.1, r.2.1)
      | some (.result pr) =>
        let p := makePlaceFromPlaceResult pr s.language
        (cache.updatePlace p, p)
      | some (.obj p) => (cache.updatePlace p, p)
      | none => (cache, default)
    let s := { s with contextPlace := some step.2 }
    if isStringPlace s.place || !s.autoFetchDisabled then
      { provider := { s with loadingState := LoadingState.LOADED },
        cache := step.1, fetchedFields := some (selectFields s) }
    else
      { provider := { s with loadingState := LoadingState.LOADED },
        cache := step.1, fetchedFields := none }

/-- The process-level state: the single `CachedPlaceLookup` held in the
static field `PlaceDataProvider.placeLookup` (`place_data_provider.ts:131`)
together with all live provider elements. -/
structure ProcessState where
  placeLookup : CachedPlaceLookup
  providers : List PlaceDataProvider
  deriving Repr, DecidableEq

/-- A fresh process: the static cache is constructed once, with capacity
`CACHE_SIZE` (`place_data_provider.ts:131-132`). -/
def initialProcess (ps : List PlaceDataProvider) : ProcessState :=
  { placeLookup := CachedPlaceLookup.init CACHE_SIZE, providers := ps }

/-- Provider `i` runs its `updatePlace` reaction against the shared static
cache. -/
def processStep (st : ProcessState) (i : Nat) (resolve : CacheKey → Place) :
    ProcessState :=
  match st.providers[i]? with
  | none => st
  | some s =>
    let r := s.updatePlace st.placeLookup resolve
    { placeLookup := r.cache, providers := st.providers.set i r.provider }

/-- A sequence of provider reactions. -/
def runProcess (st : ProcessState) :
    List (Nat × (CacheKey → Place)) → ProcessState
  | [] => st
  | (i, r) :: l => runProcess (processStep st i r) l

/-- Concrete keys and places used in the scenario states below. -/
def keyA : CacheKey := ("A", none)

def keyB : CacheKey := ("B", none)

def keyC : CacheKey := ("C", none)

def pA : Place := ⟨"A", none, 1⟩

def pB : Place := ⟨"B", none, 2⟩

def pC : Place := ⟨"C", none, 3⟩

/-- A capacity-1 cache in which a fetch for `keyA` (by caller 0) is
outstanding. -/
def pendState : CachedPlaceLookup :=
  runSteps (CachedPlaceLookup.init 1) [.get 0 keyA]

/-- The spec §8 scenario: a capacity-2 cache after lookups (each running to
completion) for keys A, B, C in order. -/
def lruState : CachedPlaceLookup :=
  runSteps (CachedPlaceLookup.init 2)
    [.get 0 keyA, .complete keyA pA, .get 1 keyB, .complete keyB pB,
     .get 2 keyC, .complete keyC pC]

/-- A second place object for key B, with different payload, used to
exercise overwriting. -/
def pB2 : Place := ⟨"B", none, 20⟩

/-- Key and places with equal identifier but different requested
languages. -/
def keyX1 : CacheKey := ("X", some "en")

def keyX2 : CacheKey := ("X", some "de")

def pX : Place := ⟨"X", some "en", 7⟩

/-- A capacity-2 cache holding the entry for identifier X in language en
only. -/
def langState : CachedPlaceLookup :=
  runSteps (CachedPlaceLookup.init 2) [.get 0 keyX1, .complete keyX1 pX]

/-- A sequence of cache steps in which each listed key is looked up by
`getPlace` and its fetch runs to completion with the listed place, in
order. -/
def lookupSeq : List (CacheKey × Place) → List CacheStep
  | [] => []
  | kp :: t => .get 0 kp.1 :: .complete kp.1 kp.2 :: lookupSeq t

def keyD : CacheKey := ("D", none)

def pD : Place := ⟨"D", none, 4⟩

/-- Concrete consumers and provider states used by the provider-level
witnesses. -/
def consumer1 : PlaceDataConsumer := ⟨["displayName", "location"]⟩

def consumer2 : PlaceDataConsumer := ⟨["location", "photos"]⟩

/-- A provider displaying a Place ID with auto-fetch disabled. -/
def providerId : PlaceDataProvider :=
  { autoFetchDisabled := true, fields := none,
    place := some (.str "ChIJ123"), language := none,
    placeConsumers := [consumer1, consumer2],
    loadingState := .EMPTY, contextPlace := none }

/-- A provider whose `place` property is unset. -/
def providerEmpty : PlaceDataProvider :=
  { providerId with place := none }

/-- A provider displaying a `Place` object with auto-fetch disabled. -/
def providerObj : PlaceDataProvider :=
  { providerId with place := some (.obj pA) }

/-- A fixed resolution function for witnesses. -/
def resolveFn : CacheKey → Place := fun k => ⟨k.1, k.2, 0⟩

section AListTheorems

variable {α : Type} {β : Type} [DecidableEq α]

theorem alistErase_sublist (l : List (α × β)) (k : α) :
    List.Sublist (alistErase l k) l := by
  induction l with
  | nil => simp [alistErase]
  | cons e es ih =>
    by_cases h : e.1 = k
    · simpa [alistErase, h] using ih.cons e
    · simpa [alistErase, h] using ih.cons₂ e

theorem alistErase_length_le (l : List (α × β)) (k : α) :
    (alistErase l k).length ≤ l.length :=
  (alistErase_sublist l k).length_le

theorem mem_alistErase {l : List (α × β)} {k : α} {e : α × β}
    (h : e ∈ alistErase l k) : e ∈ l ∧ e.1 ≠ k := by
  induction l with
  | nil => simp [alistErase] at h
  | cons a es ih =>
    by_cases ha : a.1 = k
    · simp only [alistErase, if_pos ha] at h
      exact ⟨List.mem_cons_of_mem a (ih h).1, (ih h).2⟩
    · simp only [alistErase, if_neg ha, List.mem_cons] at h
      rcases h with rfl | h
      · exact ⟨List.mem_cons_self _ _, ha⟩
      · exact ⟨List.mem_cons_of_mem a (ih h).1, (ih h).2⟩

theorem not_mem_keys_alistErase (l : List (α × β)) (k : α) :
    k ∉ (alistErase l k).map Prod.fst := by
  intro hk
  rcases List.mem_map.1 hk with ⟨e, he, hek⟩
  exact (mem_alistErase he).2 hek

theorem keys_nodup_alistErase {l : List (α × β)} (k : α)
    (h : (l.map Prod.fst).Nodup) : ((alistErase l k).map Prod.fst).Nodup :=
  h.sublist ((alistErase_sublist l k).map Prod.fst)

theorem alistLookup_some_length {l : List (α × β)} {k : α} {b : β}
    (h : alistLookup l k = some b) : (alistErase l k).length + 1 ≤ l.length := by
  induction l with
  | nil => simp [alistLookup] at h
  | cons e es ih =>
    by_cases he : e.1 = k
    · simp only [alistErase, he, if_pos]
      exact Nat.succ_le_succ (alistErase_length_le es k)
    · simp only [alistLookup, he, if_neg] at h
      simp only [alistErase, he, if_neg, List.length_cons]
      exact Nat.succ_le_succ (ih h)

theorem alistLookup_none_not_mem {l : List (α × β)} {k : α}
    (h : alistLookup l k = none) : k ∉ l.map Prod.fst := by
  induction l with
  | nil => simp
  | cons e es ih =>
    by_cases he : e.1 = k
    · simp [alistLookup, he] at h
    · simp only [alistLookup, he, if_neg] at h
      simp only [List.map_cons, List.mem_cons]
      rintro (rfl | hmem)
      · exact he rfl
      · exact ih h hmem

theorem alistLookup_none_erase_eq {l : List (α × β)} {k : α}
    (h : alistLookup l k = none) : alistErase l k = l := by
  induction l with
  | nil => simp [alistErase]
  | cons e es ih =>
    by_cases he : e.1 = k
    · simp [alistLookup, he] at h
    · simp only [alistLookup, he, if_neg] at h
      simp [alistErase, he, ih h]

theorem alistLookup_alistErase_self (l : List (α × β)) (k : α) :
    alistLookup (alistErase l k) k = none := by
  induction l with
  | nil => simp [alistErase, alistLookup]
  | cons e es ih =>
    by_cases he : e.1 = k
    · simpa [alistErase, he] using ih
    · simp [alistErase, he, alistLookup, ih]

end AListTheorems

theorem keys_addWaiter (l : List (CacheKey × List Nat)) (k : CacheKey)
    (caller : Nat) : (addWaiter l k caller).map Prod.fst = l.map Prod.fst := by
  induction l with
  | nil => simp [addWaiter]
  | cons e es ih =>
    by_cases h : e.1 = k
    · simp [addWaiter, if_pos h]
    · simp [addWaiter, if_neg h, ih]

theorem alistLookup_addWaiter_self {l : List (CacheKey × List Nat)}
    {k : CacheKey} {ws : List Nat} (caller : Nat)
    (h : alistLookup l k = some ws) :
    alistLookup (addWaiter l k caller) k = some (caller :: ws) := by
  induction l with
  | nil => simp [alistLookup] at h
  | cons e es ih =>
    by_cases he : e.1 = k
    · simp only [alistLookup, if_pos he] at h
      simp only [addWaiter, if_pos he, alistLookup, he, if_pos]
      rw [Option.some_inj.1 h]
    · simp only [alistLookup, if_neg he] at h
      simp [addWaiter, if_neg he, alistLookup, he, ih h]

theorem capacity_insertMRU (c : CachedPlaceLookup) (k : CacheKey) (p : Place) :
    (insertMRU c k p).capacity = c.capacity := rfl

theorem capacity_applyStep (c : CachedPlaceLookup) (s : CacheStep) :
    (applyStep c s).capacity = c.capacity := by
  cases s with
  | get caller k =>
    simp only [applyStep, CachedPlaceLookup.getPlaceStart]
    cases alistLookup c.entries k with
    | some p => rfl
    | none => cases alistLookup c.pending k with
      | some ws => rfl
      | none => rfl
  | complete k p => rfl
  | fail k => rfl
  | update p => rfl

theorem capacity_runSteps (c : CachedPlaceLookup) (l : List CacheStep) :
    (runSteps c l).capacity = c.capacity := by
  induction l generalizing c with
  | nil => rfl
  | cons s l ih => rw [runSteps, ih, capacity_applyStep]

theorem cacheInv_init (n : Nat) : CacheInv (CachedPlaceLookup.init n) := by
  refine ⟨?_, ?_, ?_⟩ <;> simp [CachedPlaceLookup.init, CacheInv]

theorem entries_insertMRU_length (c : CachedPlaceLookup) (k : CacheKey)
    (p : Place) : (insertMRU c k p).entries.length ≤ c.capacity := by
  simp only [insertMRU]
  calc (((k, p) :: alistErase c.entries k).take c.capacity).length
      ≤ c.capacity := by
        rw [List.length_take]
        exact Nat.min_le_left _ _

theorem entries_insertMRU_nodup (c : CachedPlaceLookup) (k : CacheKey)
    (p : Place) (h : (c.entries.map Prod.fst).Nodup) :
    ((insertMRU c k p).entries.map Prod.fst).Nodup := by
  simp only [insertMRU]
  have hsub : List.Sublist
      ((((k, p) :: alistErase c.entries k).take c.capacity).map Prod.fst)
      (((k, p) :: alistErase c.entries k).map Prod.fst) :=
    (List.take_sublist _ _).map Prod.fst
  refine List.Nodup.sublist hsub ?_
  simp only [List.map_cons]
  exact List.nodup_cons.2
    ⟨not_mem_keys_alistErase c.entries k, keys_nodup_alistErase k h⟩

theorem cacheInv_applyStep {c : CachedPlaceLookup} (s : CacheStep)
    (h : CacheInv c) : CacheInv (applyStep c s) := by
  obtain ⟨hlen, hent, hpend⟩ := h
  cases s with
  | get caller k =>
    simp only [applyStep, CachedPlaceLookup.getPlaceStart]
    cases hl : alistLookup c.entries k with
    | some p =>
      refine ⟨?_, ?_, hpend⟩
      · simp only [List.length_cons]
        exact le_trans (alistLookup_some_length hl) hlen
      · simp only [List.map_cons]
        exact List.nodup_cons.2
          ⟨not_mem_keys_alistErase c.entries k, keys_nodup_alistErase k hent⟩
    | none =>
      cases hp : alistLookup c.pending k with
      | some ws =>
        exact ⟨hlen, hent, by rw [keys_addWaiter]; exact hpend⟩
      | none =>
        refine ⟨hlen, hent, ?_⟩
        simp only [List.map_cons]
        exact List.nodup_cons.2 ⟨alistLookup_none_not_mem hp, hpend⟩
  | complete k p =>
    refine ⟨entries_insertMRU_length _ k p, ?_, keys_nodup_alistErase k hpend⟩
    exact entries_insertMRU_nodup _ k p hent
  | fail k =>
    exact ⟨hlen, hent, keys_nodup_alistErase k hpend⟩
  | update p =>
    refine ⟨entries_insertMRU_length _ _ _, ?_, hpend⟩
    exact entries_insertMRU_nodup _ _ _ hent

theorem cacheInv_runSteps {c : CachedPlaceLookup} (l : List CacheStep)
    (h : CacheInv c) : CacheInv (runSteps c l) := by
  induction l generalizing c with
  | nil => exact h
  | cons s l ih => exact ih (cacheInv_applyStep s h)

theorem cacheInv_reachable (n : Nat) (l : List CacheStep) :
    CacheInv (runSteps (CachedPlaceLookup.init n) l) :=
  cacheInv_runSteps l (cacheInv_init n)

/-- C1: in every reachable cache state there is at most one in-flight fetch
per key (the pending keys are distinct); a caller requesting a key whose
fetch is outstanding (and that has no resolved entry) attaches to that
fetch instead of issuing a duplicate resolution call, and the completion of
that single fetch delivers its result to this caller together with all
previous waiters. -/
theorem getPlace_coalesces_inflight (n : Nat) (l : List CacheStep)
    (c : CachedPlaceLookup) (caller : Nat) (k : CacheKey) (ws : List Nat)
    (p : Place) (hc : c = runSteps (CachedPlaceLookup.init n) l)
    (hpend : alistLookup c.pending k = some ws)
    (hent : alistLookup c.entries k = none) :
    (c.pending.map Prod.fst).Nodup ∧
    (c.getPlaceStart caller k).2 = .attached ∧
    ((c.getPlaceStart caller k).1.complete k p).2 = caller :: ws ∧
    stepResolutions c (.get caller k) = 0 := by
  have hnodup : (c.pending.map Prod.fst).Nodup := by
    rw [hc]; exact (cacheInv_reachable n l).2.2
  have hstart : (c.getPlaceStart caller k).1.pending =
      addWaiter c.pending k caller := by
    simp [CachedPlaceLookup.getPlaceStart, hent, hpend]
  have hout : (c.getPlaceStart caller k).2 = .attached := by
    simp [CachedPlaceLookup.getPlaceStart, hent, hpend]
  refine ⟨hnodup, hout, ?_, ?_⟩
  · simp only [CachedPlaceLookup.complete, hstart]
    rw [alistLookup_addWaiter_self caller hpend]
    rfl
  · simp [stepResolutions, hout]

theorem getPlace_coalesces_inflight_witness :
    (pendState.pending.map Prod.fst).Nodup ∧
    (pendState.getPlaceStart 1 keyA).2 = .attached ∧
    ((pendState.getPlaceStart 1 keyA).1.complete keyA pA).2 = 1 :: [0] ∧
    stepResolutions pendState (.get 1 keyA) = 0 :=
  getPlace_coalesces_inflight 1 [.get 0 keyA] pendState 1 keyA [0] pA rfl
    (by decide) (by decide)

/-- C2: the cache never holds more than its capacity `n` of resolved
entries, in any state reachable by `getPlace`/`updatePlace`/completion
steps; and when an insertion on fetch success of a new key would exceed a
full cache, the entry at the least-recently-used end is dropped (the new
entry list is the new pair followed by all old entries except the last). -/
theorem cache_bounded_lru :
    (∀ (n : Nat) (l : List CacheStep),
      (runSteps (CachedPlaceLookup.init n) l).entries.length ≤ n) ∧
    (∀ (c : CachedPlaceLookup) (k : CacheKey) (p : Place),
      0 < c.capacity → c.entries.length = c.capacity →
      alistLookup c.entries k = none →
      (c.complete k p).1.entries = (k, p) :: c.entries.dropLast) := by
  constructor
  · intro n l
    have h := (cacheInv_reachable n l).1
    rwa [capacity_runSteps] at h
  · intro c k p hcap hfull hnone
    obtain ⟨m, hm⟩ : ∃ m, c.capacity = m + 1 :=
      ⟨c.capacity - 1, (Nat.succ_pred_eq_of_pos hcap).symm⟩
    simp only [CachedPlaceLookup.complete, insertMRU,
      alistLookup_none_erase_eq hnone, hm, List.take_succ_cons]
    rw [List.dropLast_eq_take, hfull, hm]
    simp

theorem cache_bounded_lru_witness :
    (runSteps (CachedPlaceLookup.init 2)
        [.get 0 keyA, .complete keyA pA, .get 1 keyB, .complete keyB pB,
         .get 2 keyC, .complete keyC pC]).entries.length ≤ 2 ∧
    ((runSteps (CachedPlaceLookup.init 2)
        [.get 0 keyA, .complete keyA pA, .get 1 keyB,
         .complete keyB pB]).complete keyC pC).1.entries =
      (keyC, pC) :: (runSteps (CachedPlaceLookup.init 2)
        [.get 0 keyA, .complete keyA pA, .get 1 keyB,
         .complete keyB pB]).entries.dropLast :=
  ⟨cache_bounded_lru.1 2 _,
   cache_bounded_lru.2 _ keyC pC (by decide) (by decide) (by decide)⟩

/-- C4: when the fetch for key `k` fails, the error is delivered to exactly
the callers waiting on `k`, no entry is cached for `k` (the resolved
entries are unchanged), the pending marker for `k` is removed, and an
immediately subsequent `getPlace` for `k` issues a new resolution call. -/
theorem fail_clears_pending (c : CachedPlaceLookup) (caller : Nat)
    (k : CacheKey) (ws : List Nat)
    (hpend : alistLookup c.pending k = some ws)
    (hent : alistLookup c.entries k = none) :
    (c.fail k).2 = ws ∧
    alistLookup (c.fail k).1.pending k = none ∧
    (c.fail k).1.entries = c.entries ∧
    ((c.fail k).1.getPlaceStart caller k).2 = .fetchStarted ∧
    stepResolutions (c.fail k).1 (.get caller k) = 1 := by
  have hp : alistLookup (c.fail k).1.pending k = none := by
    simp only [CachedPlaceLookup.fail]
    exact alistLookup_alistErase_self c.pending k
  have he : (c.fail k).1.entries = c.entries := rfl
  have hout : ((c.fail k).1.getPlaceStart caller k).2 = .fetchStarted := by
    have : alistLookup (c.fail k).1.entries k = none := by rw [he]; exact hent
    simp [CachedPlaceLookup.getPlaceStart, this, hp]
  refine ⟨?_, hp, he, hout, ?_⟩
  · simp [CachedPlaceLookup.fail, hpend]
  · simp [stepResolutions, hout]

theorem fail_clears_pending_witness :
    (pendState.fail keyA).2 = [0] ∧
    alistLookup (pendState.fail keyA).1.pending keyA = none ∧
    (pendState.fail keyA).1.entries = pendState.entries ∧
    ((pendState.fail keyA).1.getPlaceStart 1 keyA).2 = .fetchStarted ∧
    stepResolutions (pendState.fail keyA).1 (.get 1 keyA) = 1 :=
  fail_clears_pending pendState 1 keyA [0] (by decide) (by decide)

/-- C5: `CachedPlaceLookup.updatePlace p` inserts or overwrites the cache
entry for `p`'s identifier/language key with `p` itself, places it at the
most-recently-used end, leaves the pending (in-flight) records untouched,
and issues no resolution call. -/
theorem updatePlace_no_fetch (c : CachedPlaceLookup) (p : Place)
    (hcap : 0 < c.capacity) :
    alistLookup (c.updatePlace p).entries (placeKey p) = some p ∧
    (c.updatePlace p).entries.head? = some (placeKey p, p) ∧
    (c.updatePlace p).pending = c.pending ∧
    resolutions c [.update p] = 0 := by
  obtain ⟨m, hm⟩ : ∃ m, c.capacity = m + 1 :=
    ⟨c.capacity - 1, (Nat.succ_pred_eq_of_pos hcap).symm⟩
  have hent : (c.updatePlace p).entries =
      (placeKey p, p) :: (alistErase c.entries (placeKey p)).take m := by
    simp [CachedPlaceLookup.updatePlace, insertMRU, hm, List.take_succ_cons]
  refine ⟨?_, ?_, rfl, ?_⟩
  · rw [hent]; simp [alistLookup]
  · rw [hent]; rfl
  · simp [resolutions, stepResolutions]

theorem updatePlace_no_fetch_witness :
    alistLookup (lruState.updatePlace pB2).entries (placeKey pB2) = some pB2 ∧
    (lruState.updatePlace pB2).entries.head? = some (placeKey pB2, pB2) ∧
    (lruState.updatePlace pB2).pending = lruState.pending ∧
    resolutions lruState [.update pB2] = 0 :=
  updatePlace_no_fetch lruState pB2 (by decide)

/-- C6: cache keys are the identifier/language pair and agree exactly when
both components agree; with the entry for `(id, l1)` cached and `l1 ≠ l2`,
a lookup of `(id, l1)` hits that entry while a lookup of `(id, l2)` (with
no entry and no in-flight fetch) addresses a distinct key and issues its
own resolution call. -/
theorem cacheKey_id_language (c : CachedPlaceLookup) (caller : Nat)
    (id : String) (l1 l2 : Option String) (p : Place) (hne : l1 ≠ l2)
    (h1 : alistLookup c.entries (id, l1) = some p)
    (h2e : alistLookup c.entries (id, l2) = none)
    (h2p : alistLookup c.pending (id, l2) = none) :
    ((id, l1) : CacheKey) ≠ (id, l2) ∧
    (∀ q : Place, placeKey q = (id, l1) ↔
      q.id = id ∧ q.requestedLanguage = l1) ∧
    (c.getPlaceStart caller (id, l1)).2 = .hit p ∧
    (c.getPlaceStart caller (id, l2)).2 = .fetchStarted ∧
    stepResolutions c (.get caller (id, l2)) = 1 := by
  have hout : (c.getPlaceStart caller (id, l2)).2 = .fetchStarted := by
    simp [CachedPlaceLookup.getPlaceStart, h2e, h2p]
  refine ⟨?_, ?_, ?_, hout, ?_⟩
  · intro h
    exact hne (congrArg Prod.snd h)
  · intro q
    simp [placeKey, Prod.ext_iff]
  · simp [CachedPlaceLookup.getPlaceStart, h1]
  · simp [stepResolutions, hout]

theorem cacheKey_id_language_witness :
    (keyX1 ≠ keyX2) ∧
    (∀ q : Place, placeKey q = ("X", some "en") ↔
      q.id = "X" ∧ q.requestedLanguage = some "en") ∧
    (langState.getPlaceStart 1 ("X", some "en")).2 = .hit pX ∧
    (langState.getPlaceStart 1 ("X", some "de")).2 = .fetchStarted ∧
    stepResolutions langState (.get 1 ("X", some "de")) = 1 :=
  cacheKey_id_language langState 1 "X" (some "en") (some "de") pX
    (by decide) (by decide) (by decide) (by decide)

theorem entries_insertMRU_eq (c : CachedPlaceLookup) (k : CacheKey)
    (p : Place) (m : Nat) (hm : c.capacity = m + 1) :
    (insertMRU c k p).entries =
      (k, p) :: (alistErase c.entries k).take m := by
  simp [insertMRU, hm, List.take_succ_cons]

theorem alistLookup_insertMRU_self (c : CachedPlaceLookup) (k : CacheKey)
    (p : Place) (hcap : 0 < c.capacity) :
    alistLookup (insertMRU c k p).entries k = some p := by
  obtain ⟨m, hm⟩ : ∃ m, c.capacity = m + 1 :=
    ⟨c.capacity - 1, (Nat.succ_pred_eq_of_pos hcap).symm⟩
  rw [entries_insertMRU_eq c k p m hm]
  simp [alistLookup]

theorem capacity_getPlaceSync (c : CachedPlaceLookup) (k : CacheKey)
    (resolve : CacheKey → Place) :
    (c.getPlaceSync k resolve).1.capacity = c.capacity := by
  simp only [CachedPlaceLookup.getPlaceSync]
  cases alistLookup c.entries k with
  | some p => rfl
  | none =>
    have h1 := capacity_applyStep c (.get 0 k)
    have h2 := capacity_applyStep (c.getPlaceStart 0 k).1 (.complete k (resolve k))
    simp only [applyStep] at h1 h2
    rw [h2, h1]

theorem capacity_provider_updatePlace (s : PlaceDataProvider)
    (cache : CachedPlaceLookup) (resolve : CacheKey → Place) :
    (s.updatePlace cache resolve).cache.capacity = cache.capacity := by
  cases hp : s.place with
  | none => simp [PlaceDataProvider.updatePlace, hp, isFalsyPlace]
  | some pp =>
    cases pp with
    | str pid =>
      by_cases hid : pid = ""
      · simp [PlaceDataProvider.updatePlace, hp, isFalsyPlace, hid]
      · simp only [PlaceDataProvider.updatePlace, hp, isFalsyPlace, hid]
        split
        · simp
        · split <;> simp [capacity_getPlaceSync]
    | result pr =>
      simp only [PlaceDataProvider.updatePlace, hp, isFalsyPlace]
      split
      · simp
      · split <;> simp [CachedPlaceLookup.updatePlace, capacity_insertMRU]
    | obj p =>
      simp only [PlaceDataProvider.updatePlace, hp, isFalsyPlace]
      split
      · simp
      · split <;> simp [CachedPlaceLookup.updatePlace, capacity_insertMRU]
theorem capacity_processStep (st : ProcessState) (i : Nat)
    (resolve : CacheKey → Place) :
    (processStep st i resolve).placeLookup.capacity =
      st.placeLookup.capacity := by
  simp only [processStep]
  cases st.providers[i]? with
  | none => rfl
  | some s => simp [capacity_provider_updatePlace]

theorem capacity_runProcess (st : ProcessState)
    (l : List (Nat × (CacheKey → Place))) :
    (runProcess st l).placeLookup.capacity = st.placeLookup.capacity := by
  induction l generalizing st with
  | nil => rfl
  | cons ir l ih =>
    cases ir with
    | mk i r => rw [runProcess, ih, capacity_processStep]

theorem single_shared_cache (st : ProcessState) (i : Nat)
    (resolve : CacheKey → Place) (p : Place) (s : PlaceDataProvider)
    (hs : st.providers[i]? = some s) (hp : s.place = some (.obj p))
    (hcap : 0 < st.placeLookup.capacity) :
    CACHE_SIZE = 100 ∧
    (∀ ps : List PlaceDataProvider,
      (initialProcess ps).placeLookup = CachedPlaceLookup.init 100) ∧
    (∀ (ps : List PlaceDataProvider) (l : List (Nat × (CacheKey → Place))),
      (runProcess (initialProcess ps) l).placeLookup.capacity = 100) ∧
    alistLookup (processStep st i resolve).placeLookup.entries
      (placeKey p) = some p := by
  refine ⟨rfl, fun ps => rfl, ?_, ?_⟩
  · intro ps l
    rw [capacity_runProcess]
    rfl
  · simp only [processStep, hs]
    have hcache : (s.updatePlace st.placeLookup resolve).cache =
        st.placeLookup.updatePlace p := by
      simp only [PlaceDataProvider.updatePlace, hp, isFalsyPlace]
      split
      · simp_all
      · split <;> rfl
    rw [hcache]
    exact alistLookup_insertMRU_self st.placeLookup (placeKey p) p hcap

theorem single_shared_cache_witness :
    CACHE_SIZE = 100 ∧
    (∀ ps : List PlaceDataProvider,
      (initialProcess ps).placeLookup = CachedPlaceLookup.init 100) ∧
    (∀ (ps : List PlaceDataProvider) (l : List (Nat × (CacheKey → Place))),
      (runProcess (initialProcess ps) l).placeLookup.capacity = 100) ∧
    alistLookup (processStep (initialProcess [providerObj]) 0
      resolveFn).placeLookup.entries (placeKey pA) = some pA :=
  single_shared_cache (initialProcess [providerObj]) 0 resolveFn pA
    providerObj rfl rfl (by decide)
theorem autoFetch_scope :
    (∀ (s : PlaceDataProvider) (cache : CachedPlaceLookup)
      (resolve : CacheKey → Place) (pid : String), pid ≠ "" →
      s.place = some (.str pid) →
      (s.updatePlace cache resolve).fetchedFields = some (selectFields s)) ∧
    (∀ (s : PlaceDataProvider) (cache : CachedPlaceLookup)
      (resolve : CacheKey → Place) (p : Place), s.autoFetchDisabled = true →
      (s.place = some (.obj p) ∨ s.place = some (.result p)) →
      (s.updatePlace cache resolve).fetchedFields = none) ∧
    (∀ (s : PlaceDataProvider) (cache : CachedPlaceLookup)
      (resolve : CacheKey → Place), s.autoFetchDisabled = false →
      isFalsyPlace s.place = false →
      (s.updatePlace cache resolve).fetchedFields = some (selectFields s)) := by
  refine ⟨?_, ?_, ?_⟩
  · intro s cache resolve pid hpid hplace
    simp only [PlaceDataProvider.updatePlace, hplace, isFalsyPlace, hpid]
    simp [isStringPlace, selectFields]
  · intro s cache resolve p hauto hplace
    rcases hplace with hplace | hplace <;>
      simp [PlaceDataProvider.updatePlace, hplace, isFalsyPlace,
        isStringPlace, hauto]
  · intro s cache resolve hauto hfalsy
    cases hp : s.place with
    | none => rw [hp] at hfalsy; simp [isFalsyPlace] at hfalsy
    | some pp =>
      cases pp with
      | str pid =>
        rw [hp] at hfalsy
        simp only [isFalsyPlace, decide_eq_false_iff_not] at hfalsy
        simp only [PlaceDataProvider.updatePlace, hp, isFalsyPlace, hfalsy]
        simp [isStringPlace, selectFields]
      | result pr =>
        simp [PlaceDataProvider.updatePlace, hp, isFalsyPlace,
          isStringPlace, hauto, selectFields]
      | obj p =>
        simp [PlaceDataProvider.updatePlace, hp, isFalsyPlace,
          isStringPlace, hauto, selectFields]

theorem autoFetch_scope_witness :
    (providerId.updatePlace (CachedPlaceLookup.init 2)
      resolveFn).fetchedFields = some (selectFields providerId) ∧
    (providerObj.updatePlace (CachedPlaceLookup.init 2)
      resolveFn).fetchedFields = none :=
  ⟨autoFetch_scope.1 providerId (CachedPlaceLookup.init 2) resolveFn
    "ChIJ123" (by decide) rfl,
   autoFetch_scope.2.1 providerObj (CachedPlaceLookup.init 2) resolveFn pA
    rfl (Or.inl rfl)⟩
theorem falsy_place_empty (s : PlaceDataProvider)
    (cache : CachedPlaceLookup) (resolve : CacheKey → Place)
    (h : s.place = none ∨ s.place = some (.str "")) :
    (s.updatePlace cache resolve).provider.contextPlace = none ∧
    (s.updatePlace cache resolve).provider.loadingState = .EMPTY ∧
    (s.updatePlace cache resolve).cache = cache ∧
    (s.updatePlace cache resolve).fetchedFields = none := by
  rcases h with h | h <;>
    simp [PlaceDataProvider.updatePlace, h, isFalsyPlace]

theorem falsy_place_empty_witness :
    (providerEmpty.updatePlace (CachedPlaceLookup.init 2)
      resolveFn).provider.contextPlace = none ∧
    (providerEmpty.updatePlace (CachedPlaceLookup.init 2)
      resolveFn).provider.loadingState = .EMPTY ∧
    (providerEmpty.updatePlace (CachedPlaceLookup.init 2)
      resolveFn).cache = CachedPlaceLookup.init 2 ∧
    (providerEmpty.updatePlace (CachedPlaceLookup.init 2)
      resolveFn).fetchedFields = none :=
  falsy_place_empty providerEmpty (CachedPlaceLookup.init 2) resolveFn
    (Or.inl rfl)

theorem mem_foldl_addToFieldSet (l : List String) (acc : List String)
    (x : String) : x ∈ l.foldl addToFieldSet acc ↔ x ∈ acc ∨ x ∈ l := by
  induction l generalizing acc with
  | nil => simp
  | cons a t ih =>
    simp only [List.foldl_cons, ih, addToFieldSet, List.mem_cons]
    by_cases ha : a ∈ acc
    · simp only [if_pos ha]
      constructor
      · rintro (hx | hx)
        · exact Or.inl hx
        · exact Or.inr (Or.inr hx)
      · rintro (hx | rfl | hx)
        · exact Or.inl hx
        · exact Or.inl ha
        · exact Or.inr hx
    · simp only [if_neg ha, List.mem_append, List.mem_singleton]
      tauto

theorem nodup_foldl_addToFieldSet (l : List String) (acc : List String)
    (h : acc.Nodup) : (l.foldl addToFieldSet acc).Nodup := by
  induction l generalizing acc with
  | nil => exact h
  | cons a t ih =>
    simp only [List.foldl_cons, addToFieldSet]
    by_cases ha : a ∈ acc
    · simp only [if_pos ha]
      exact ih acc h
    · simp only [if_neg ha]
      refine ih _ ?_
      simp [List.nodup_append, h, ha]

theorem mem_consumerFold (consumers : List PlaceDataConsumer)
    (acc : List String) (x : String) :
    x ∈ consumers.foldl
        (fun acc c => c.requiredFields.foldl addToFieldSet acc) acc ↔
      x ∈ acc ∨ ∃ c ∈ consumers, x ∈ c.requiredFields := by
  induction consumers generalizing acc with
  | nil => simp
  | cons c t ih =>
    simp only [List.foldl_cons, ih, mem_foldl_addToFieldSet, List.mem_cons]
    constructor
    · rintro ((hx | hx) | ⟨d, hd, hx⟩)
      · exact Or.inl hx
      · exact Or.inr ⟨c, Or.inl rfl, hx⟩
      · exact Or.inr ⟨d, Or.inr hd, hx⟩
    · rintro (hx | ⟨d, rfl | hd, hx⟩)
      · exact Or.inl (Or.inl hx)
      · exact Or.inl (Or.inr hx)
      · exact Or.inr ⟨d, hd, hx⟩

theorem nodup_consumerFold (consumers : List PlaceDataConsumer)
    (acc : List String) (h : acc.Nodup) :
    (consumers.foldl
      (fun acc c => c.requiredFields.foldl addToFieldSet acc) acc).Nodup := by
  induction consumers generalizing acc with
  | nil => exact h
  | cons c t ih =>
    simp only [List.foldl_cons]
    exact ih _ (nodup_foldl_addToFieldSet _ _ h)

theorem consumer_fields_requested :
    (∀ consumers : List PlaceDataConsumer,
      (getConsumerFields consumers).Nodup) ∧
    (∀ (consumers : List PlaceDataConsumer) (f : String),
      f ∈ getConsumerFields consumers ↔
        ∃ c ∈ consumers, f ∈ c.requiredFields) ∧
    (∀ s : PlaceDataProvider, s.fields = none ∨ s.fields = some [] →
      selectFields s = getConsumerFields s.placeConsumers) ∧
    (∀ (s : PlaceDataProvider) (fs : List String), s.fields = some fs →
      fs ≠ [] → selectFields s = fs) ∧
    (∀ (s : PlaceDataProvider) (cache : CachedPlaceLookup)
      (resolve : CacheKey → Place) (pid : String), pid ≠ "" →
      s.place = some (.str pid) →
      (s.updatePlace cache resolve).fetchedFields = some (selectFields s)) := by
  refine ⟨?_, ?_, ?_, ?_, ?_⟩
  · intro consumers
    exact nodup_consumerFold consumers [] (by simp)
  · intro consumers f
    rw [getConsumerFields, mem_consumerFold]
    simp
  · intro s h
    rcases h with h | h <;> simp [selectFields, h]
  · intro s fs hfs hne
    simp [selectFields, hfs, hne]
  · intro s cache resolve pid hpid hplace
    simp only [PlaceDataProvider.updatePlace, hplace, isFalsyPlace, hpid]
    simp [isStringPlace, selectFields]

theorem consumer_fields_requested_witness :
    (getConsumerFields [consumer1, consumer2]).Nodup ∧
    ("photos" ∈ getConsumerFields [consumer1, consumer2] ↔
      ∃ c ∈ [consumer1, consumer2], "photos" ∈ c.requiredFields) ∧
    selectFields providerId = getConsumerFields providerId.placeConsumers ∧
    selectFields { providerId with fields := some ["photos"] } = ["photos"] ∧
    (providerId.updatePlace (CachedPlaceLookup.init 2)
      resolveFn).fetchedFields = some (selectFields providerId) :=
  ⟨consumer_fields_requested.1 [consumer1, consumer2],
   consumer_fields_requested.2.1 [consumer1, consumer2] "photos",
   consumer_fields_requested.2.2.1 providerId (Or.inl rfl),
   consumer_fields_requested.2.2.2.1 { providerId with fields := some ["photos"] }
     ["photos"] rfl (by decide),
   consumer_fields_requested.2.2.2.2 providerId (CachedPlaceLookup.init 2)
     resolveFn "ChIJ123" (by decide) rfl⟩

theorem alistLookup_some_mem {α β : Type} [DecidableEq α]
    {l : List (α × β)} {k : α} {b : β}
    (h : alistLookup l k = some b) : (k, b) ∈ l := by
  induction l with
  | nil => simp [alistLookup] at h
  | cons e es ih =>
    obtain ⟨e1, e2⟩ := e
    by_cases he : e1 = k
    · subst he
      simp only [alistLookup, if_pos] at h
      rw [← Option.some_inj.1 h]
      exact List.mem_cons_self _ _
    · simp only [alistLookup, if_neg he] at h
      exact List.mem_cons_of_mem _ (ih h)

theorem alistLookup_eq_none {α β : Type} [DecidableEq α]
    (l : List (α × β)) (k : α) :
    alistLookup l k = none ↔ k ∉ l.map Prod.fst := by
  constructor
  · exact alistLookup_none_not_mem
  · intro h
    cases hl : alistLookup l k with
    | none => rfl
    | some b =>
      exact absurd (List.mem_map_of_mem Prod.fst (alistLookup_some_mem hl)) h

theorem take_append_take {γ : Type} (a x : List γ) (n : Nat) :
    (a ++ x.take n).take n = (a ++ x).take n := by
  rw [List.take_append_eq_append_take, List.take_append_eq_append_take,
    List.take_take]
  congr 1
  rw [Nat.min_eq_left (Nat.sub_le n a.length)]

theorem runSteps_insert_fresh (c : CachedPlaceLookup) (k : CacheKey)
    (p : Place) (t : List (CacheKey × Place))
    (he : alistLookup c.entries k = none)
    (hp : alistLookup c.pending k = none) :
    runSteps c (lookupSeq ((k, p) :: t)) =
      runSteps { c with entries := ((k, p) :: c.entries).take c.capacity }
        (lookupSeq t) := by
  have hget : applyStep c (.get 0 k) =
      { c with pending := (k, [0]) :: c.pending } := by
    simp [applyStep, CachedPlaceLookup.getPlaceStart, he, hp]
  have hcomp : applyStep { c with pending := (k, [0]) :: c.pending }
      (.complete k p) =
      { c with entries := ((k, p) :: c.entries).take c.capacity } := by
    simp only [applyStep, CachedPlaceLookup.complete, insertMRU,
      alistErase, if_pos, alistLookup_none_erase_eq hp,
      alistLookup_none_erase_eq he]
  show runSteps (applyStep (applyStep c (.get 0 k)) (.complete k p))
      (lookupSeq t) = _
  rw [hget, hcomp]

theorem insertSeq_entries (l : List (CacheKey × Place))
    (c : CachedPlaceLookup) (hnodup : (l.map Prod.fst).Nodup)
    (hfresh : ∀ kp ∈ l, alistLookup c.entries kp.1 = none ∧
      alistLookup c.pending kp.1 = none)
    (hlen : c.entries.length ≤ c.capacity) :
    (runSteps c (lookupSeq l)).entries =
      (l.reverse ++ c.entries).take c.capacity ∧
    (runSteps c (lookupSeq l)).pending = c.pending := by
  induction l generalizing c with
  | nil =>
    exact ⟨by simp [lookupSeq, runSteps, List.take_of_length_le hlen], rfl⟩
  | cons kp t ih =>
    obtain ⟨k, p⟩ := kp
    have hk := hfresh (k, p) (List.mem_cons_self _ _)
    have hknot : k ∉ t.map Prod.fst := by
      have := hnodup
      simp only [List.map_cons, List.nodup_cons] at this
      exact this.1
    have hnodup2 : (t.map Prod.fst).Nodup := by
      have := hnodup
      simp only [List.map_cons, List.nodup_cons] at this
      exact this.2
    rw [runSteps_insert_fresh c k p t hk.1 hk.2]
    have hfresh2 : ∀ kp ∈ t, alistLookup
        ({ c with entries := ((k, p) :: c.entries).take c.capacity } :
          CachedPlaceLookup).entries kp.1 = none ∧
        alistLookup ({ c with entries :=
          ((k, p) :: c.entries).take c.capacity } :
          CachedPlaceLookup).pending kp.1 = none := by
      intro kp hm
      have h2 := hfresh kp (List.mem_cons_of_mem _ hm)
      refine ⟨?_, h2.2⟩
      rw [alistLookup_eq_none]
      intro hmem
      have hmem2 : kp.1 ∈ ((k, p) :: c.entries).map Prod.fst :=
        ((List.take_sublist c.capacity ((k, p) :: c.entries)).map
          Prod.fst).subset hmem
      simp only [List.map_cons, List.mem_cons] at hmem2
      rcases hmem2 with hmem2 | hmem2
      · exact hknot (hmem2 ▸ List.mem_map_of_mem Prod.fst hm)
      · exact (alistLookup_eq_none c.entries kp.1).1 h2.1 hmem2
    have hlen2 : (((k, p) :: c.entries).take c.capacity).length ≤
        c.capacity := by
      rw [List.length_take]
      exact Nat.min_le_left _ _
    obtain ⟨ihe, ihp⟩ := ih _ hnodup2 hfresh2 hlen2
    refine ⟨?_, ihp⟩
    rw [ihe]
    show (t.reverse ++ ((k, p) :: c.entries).take c.capacity).take c.capacity
      = (((k, p) :: t).reverse ++ c.entries).take c.capacity
    rw [take_append_take]
    simp [List.reverse_cons, List.append_assoc]
/-- C3: eviction order is least-recently-used and a hit refreshes
recency.  A `getPlace` hit returns the cached place and moves the entry to
the most-recently-used end; looking up N+1 distinct keys in order on a
capacity-N cache evicts exactly the first (least-recently-accessed) key,
leaving the other N in recency order; after a hit on key K, looking up any
new distinct keys does not evict K while their number is at most N-1, K
being exactly the least-recently-used entry when it is N-1; and in the
concrete spec scenario with capacity 2 and lookups A, B, C in order, A is
the entry evicted by the insertion of C, a following lookup of A misses and
issues a fresh resolution call, and a lookup of B hits with no resolution
call. -/
theorem lru_eviction_order :
    (∀ (c : CachedPlaceLookup) (caller : Nat) (k : CacheKey) (p : Place),
      alistLookup c.entries k = some p →
      (c.getPlaceStart caller k).2 = .hit p ∧
      (c.getPlaceStart caller k).1.entries.head? = some (k, p)) ∧
    (∀ (n : Nat) (k0 : CacheKey) (p0 : Place)
      (rest : List (CacheKey × Place)), rest.length = n →
      (((k0, p0) :: rest).map Prod.fst).Nodup →
      (runSteps (CachedPlaceLookup.init n)
        (lookupSeq ((k0, p0) :: rest))).entries = rest.reverse ∧
      k0 ∉ (runSteps (CachedPlaceLookup.init n)
        (lookupSeq ((k0, p0) :: rest))).entries.map Prod.fst) ∧
    (∀ (c : CachedPlaceLookup) (caller : Nat) (K : CacheKey) (p : Place)
      (l : List (CacheKey × Place)),
      alistLookup c.entries K = some p →
      (l.map Prod.fst).Nodup →
      (∀ kp ∈ l, kp.1 ≠ K ∧ alistLookup c.entries kp.1 = none ∧
        alistLookup c.pending kp.1 = none) →
      c.entries.length ≤ c.capacity →
      l.length + 1 ≤ c.capacity →
      K ∈ (runSteps (c.getPlaceStart caller K).1
        (lookupSeq l)).entries.map Prod.fst ∧
      (l.length + 1 = c.capacity →
        (runSteps (c.getPlaceStart caller K).1
          (lookupSeq l)).entries.getLast? = some (K, p))) ∧
    ((lruState.entries.map Prod.fst = [keyC, keyB]) ∧
     (lruState.getPlaceStart 3 keyA).2 = .fetchStarted ∧
     stepResolutions lruState (.get 3 keyA) = 1 ∧
     (lruState.getPlaceStart 4 keyB).2 = .hit pB ∧
     stepResolutions lruState (.get 4 keyB) = 0) := by
  refine ⟨?_, ?_, ?_, by decide, by decide, by decide, by decide, by decide⟩
  · intro c caller k p h
    constructor <;> simp [CachedPlaceLookup.getPlaceStart, h]
  · intro n k0 p0 rest hrest hnodup
    have hfresh : ∀ kp ∈ (k0, p0) :: rest,
        alistLookup (CachedPlaceLookup.init n).entries kp.1 = none ∧
        alistLookup (CachedPlaceLookup.init n).pending kp.1 = none :=
      fun kp _ => ⟨rfl, rfl⟩
    obtain ⟨he, _⟩ := insertSeq_entries ((k0, p0) :: rest)
      (CachedPlaceLookup.init n) hnodup hfresh
      (by simp [CachedPlaceLookup.init])
    have hrl : rest.reverse.length = n := by
      rw [List.length_reverse]; exact hrest
    have he2 : (runSteps (CachedPlaceLookup.init n)
        (lookupSeq ((k0, p0) :: rest))).entries = rest.reverse := by
      rw [he]
      show (((k0, p0) :: rest).reverse ++ []).take n = rest.reverse
      rw [List.append_nil, List.reverse_cons, ← hrl, List.take_left]
    refine ⟨he2, ?_⟩
    rw [he2]
    have hk0 : k0 ∉ rest.map Prod.fst := by
      have := hnodup
      simp only [List.map_cons, List.nodup_cons] at this
      exact this.1
    rw [List.map_reverse, List.mem_reverse]
    exact hk0
  · intro c caller K p l hK hnodup hfresh hlen hcap
    have hc1e : (c.getPlaceStart caller K).1.entries =
        (K, p) :: alistErase c.entries K := by
      simp [CachedPlaceLookup.getPlaceStart, hK]
    have hc1p : (c.getPlaceStart caller K).1.pending = c.pending := by
      simp [CachedPlaceLookup.getPlaceStart, hK]
    have hc1c : (c.getPlaceStart caller K).1.capacity = c.capacity := by
      simp [CachedPlaceLookup.getPlaceStart, hK]
    have hfresh2 : ∀ kp ∈ l,
        alistLookup (c.getPlaceStart caller K).1.entries kp.1 = none ∧
        alistLookup (c.getPlaceStart caller K).1.pending kp.1 = none := by
      intro kp hm
      obtain ⟨hne, hce, hcp⟩ := hfresh kp hm
      refine ⟨?_, by rw [hc1p]; exact hcp⟩
      have her : alistLookup (alistErase c.entries K) kp.1 = none := by
        rw [alistLookup_eq_none]
        intro hmem
        exact (alistLookup_eq_none c.entries kp.1).1 hce
          (((alistErase_sublist c.entries K).map Prod.fst).subset hmem)
      rw [hc1e]
      simp only [alistLookup]
      rw [if_neg (fun h => hne h.symm), her]
    have hl1 : (c.getPlaceStart caller K).1.entries.length ≤
        (c.getPlaceStart caller K).1.capacity := by
      rw [hc1e, hc1c, List.length_cons]
      exact le_trans (alistLookup_some_length hK) hlen
    obtain ⟨he, _⟩ := insertSeq_entries l _ hnodup hfresh2 hl1
    obtain ⟨m, hm⟩ : ∃ m, c.capacity = l.length + (m + 1) :=
      ⟨c.capacity - l.length - 1, by omega⟩
    have hfinal : (runSteps (c.getPlaceStart caller K).1
        (lookupSeq l)).entries =
        l.reverse ++ (K, p) :: (alistErase c.entries K).take m := by
      rw [he, hc1e, hc1c, hm, List.take_append_eq_append_take,
        List.take_of_length_le (by rw [List.length_reverse]; omega),
        List.length_reverse]
      congr 1
      have harith : l.length + (m + 1) - l.length = m + 1 := by omega
      rw [harith, List.take_succ_cons]
    refine ⟨?_, ?_⟩
    · rw [hfinal]; simp
    · intro hcapeq
      have hm0 : m = 0 := by omega
      rw [hfinal, hm0, List.take_zero]
      exact List.getLast?_concat l.reverse

theorem lru_eviction_order_witness :
    ((lruState.getPlaceStart 4 keyB).2 = .hit pB ∧
     (lruState.getPlaceStart 4 keyB).1.entries.head? = some (keyB, pB)) ∧
    ((runSteps (CachedPlaceLookup.init 2)
        (lookupSeq [(keyA, pA), (keyB, pB), (keyC, pC)])).entries =
      [(keyB, pB), (keyC, pC)].reverse ∧
     keyA ∉ (runSteps (CachedPlaceLookup.init 2)
        (lookupSeq [(keyA, pA), (keyB, pB), (keyC, pC)])).entries.map
          Prod.fst) ∧
    keyB ∈ (runSteps (lruState.getPlaceStart 1 keyB).1
      (lookupSeq [(keyD, pD)])).entries.map Prod.fst ∧
    (runSteps (lruState.getPlaceStart 1 keyB).1
      (lookupSeq [(keyD, pD)])).entries.getLast? = some (keyB, pB) :=
  ⟨lru_eviction_order.1 lruState 4 keyB pB (by decide),
   lru_eviction_order.2.1 2 keyA pA [(keyB, pB), (keyC, pC)] (by decide)
     (by decide),
   (lru_eviction_order.2.2.1 lruState 1 keyB pB [(keyD, pD)] (by decide)
     (by decide) (by decide) (by decide) (by decide)).1,
   (lru_eviction_order.2.2.1 lruState 1 keyB pB [(keyD, pD)] (by decide)
     (by decide) (by decide) (by decide) (by decide)).2 (by decide)⟩

end ECL
